import Mathlib

/-!
Verification of the chunking and TF-IDF scoring core of a small text
retrieval engine (Rust sources: `chunker.rs`, `tfidf.rs`, `search.rs`).

Modelling conventions:
* A Rust `&str` / `String` is modelled as a `List Char` (a Rust string is
  always a valid sequence of Unicode scalar values).  Byte-level facts are
  recovered through `utf8Width` / `byteLen`, the UTF-8 width of a scalar
  value and of a character sequence.
* `f32` arithmetic is modelled over `ℝ`.  The single place where IEEE
  semantics matters for the spec is division `0.0 / 0.0 = NaN`; division is
  therefore modelled by `fdiv : ℝ → ℝ → Option ℝ` with `none` playing the
  role of NaN, and NaN propagation through `*`, `+` is modelled by
  `fmul` / `fadd` / `fsum` on `Option ℝ`.
* The `while current_pos < text_len` loop of `chunk_text` is modelled as a
  fuel-indexed recursion `chunkLoop`; `none` for every fuel value models a
  non-terminating execution.  One unit of fuel is spent per loop iteration,
  and for a positive chunk size `text.length` units of fuel are enough
  (every emitted chunk consumes at least one character).
-/

/-- Rust `char::to_lowercase` applied pointwise (`str::to_lowercase`).
`Char.toLower` performs ASCII folding; the source relies on Unicode
folding, which the spec itself flags as best-effort and which no claim
here depends on. -/
def toLowerL (cs : List Char) : List Char := cs.map Char.toLower

/-- Does the first list start with the second one?  (Helper for
`listContains`.) -/
def listStartsWith : List Char → List Char → Bool
  | _, [] => true
  | [], _ :: _ => false
  | h :: hs, n :: ns => h = n && listStartsWith hs ns

/-- Rust `str::contains(&str)`: the needle (second argument) occurs as a
contiguous substring of the haystack (first argument).  Byte-level UTF-8
substring search on valid UTF-8 always matches at character boundaries, so
character-sequence containment is an exact model. -/
def listContains : List Char → List Char → Bool
  | [], ns => ns.isEmpty
  | h :: t, ns => listStartsWith (h :: t) ns || listContains t ns

/-- Accumulator worker for `splitWhitespaceL`. -/
def wordsAux : List Char → List Char → List (List Char)
  | acc, [] => if acc.isEmpty then [] else [acc.reverse]
  | acc, c :: cs =>
    if c.isWhitespace then
      if acc.isEmpty then wordsAux [] cs
      else acc.reverse :: wordsAux [] cs
    else wordsAux (c :: acc) cs

/-- Rust `str::split_whitespace`: maximal runs of non-whitespace
characters, with no empty words. -/
def splitWhitespaceL (cs : List Char) : List (List Char) := wordsAux [] cs

/-- `chunker.rs` lines 4-9: a chunk of one source document. -/
structure Chunk where
  text : List Char
  file : String
  index : Nat
deriving DecidableEq

/-- Number of bytes of the UTF-8 encoding of one Unicode scalar value
(1 to 4). -/
def utf8Width (c : Char) : Nat :=
  if c.toNat < 0x80 then 1
  else if c.toNat < 0x800 then 2
  else if c.toNat < 0x10000 then 3
  else 4

/-- Byte length of the UTF-8 encoding of a character sequence
(Rust `str::len`). -/
def byteLen (cs : List Char) : Nat := (cs.map utf8Width).sum

/-- One iteration of the `chunk_text` loop (`chunker.rs` lines 20-26),
expressed on the remaining character sequence: Rust sets
`end_pos = min(current_pos + chunk_size, text_len)` and then advances
`end_pos` to the next character boundary.  Equivalently, the emitted slice
is the shortest character prefix of the remaining text whose byte length
reaches `chunk_size` (the whole rest if it is shorter than `chunk_size`,
the empty slice if `chunk_size = 0` since `current_pos` is already a
boundary).  Returns (emitted slice, rest). -/
def takeChunk : Nat → List Char → List Char × List Char
  | _, [] => ([], [])
  | size, c :: cs =>
    if size = 0 then ([], c :: cs)
    else if size ≤ utf8Width c then ([c], cs)
    else (c :: (takeChunk (size - utf8Width c) cs).1, (takeChunk (size - utf8Width c) cs).2)

/-- The `while current_pos < text_len` loop of `chunk_text`
(`chunker.rs` lines 19-38), fuel-indexed; `none` means the fuel was
exhausted before the loop finished (for the actual non-termination result
see the `chunk_size = 0` theorem, where `none` is returned for every fuel
value). -/
def chunkLoop (chunkSize : Nat) (sourceFile : String) : Nat → List Char → Nat → Option (List Chunk)
  | _, [], _ => some []
  | 0, _ :: _, _ => none
  | fuel + 1, c :: cs, index =>
    (chunkLoop chunkSize sourceFile fuel (takeChunk chunkSize (c :: cs)).2 (index + 1)).map
      (fun rest => { text := (takeChunk chunkSize (c :: cs)).1,
                     file := sourceFile, index := index } :: rest)

/-- `chunk_text` (`chunker.rs` lines 13-41).  `text.length` units of fuel
suffice whenever the Rust loop terminates (each iteration emits at least
one character when `chunk_size > 0`). -/
def chunk_text (text : List Char) (chunk_size : Nat) (source_file : String) :
    Option (List Chunk) :=
  chunkLoop chunk_size source_file text.length text 0

/-- Rust `w.trim_end_matches(|c| !c.is_alphanumeric())` (`tfidf.rs`
line 21): strip trailing non-alphanumeric characters.  `Char.isAlphanum`
is the ASCII fragment of Rust `char::is_alphanumeric`; no claim depends on
the non-ASCII fragment. -/
def cleanWord (w : List Char) : List Char :=
  (w.reverse.dropWhile (fun c => !c.isAlphanum)).reverse

/-- The word counter of `term_frequency` (`tfidf.rs` lines 18-24): number
of whitespace-words whose cleaned, lowercased form contains the lowered
term as a substring. -/
def tfMatches (termLower : List Char) (ws : List (List Char)) : Nat :=
  (ws.filter (fun w => listContains (toLowerL (cleanWord w)) termLower)).length

/-- `f32` division as used in this code.  Both operands are casts of `Nat`
counters with numerator ≤ denominator, so a zero denominator forces a zero
numerator and the IEEE result `0.0 / 0.0` is NaN, modelled `none`. -/
noncomputable def fdiv (a b : ℝ) : Option ℝ :=
  if b = 0 then none else some (a / b)

/-- `f32` multiplication with NaN propagation (`none` is NaN). -/
noncomputable def fmul : Option ℝ → Option ℝ → Option ℝ
  | some a, some b => some (a * b)
  | _, _ => none

/-- `f32` addition with NaN propagation (`none` is NaN). -/
noncomputable def fadd : Option ℝ → Option ℝ → Option ℝ
  | some a, some b => some (a + b)
  | _, _ => none

/-- `Iterator::sum` over `f32` values with NaN propagation. -/
noncomputable def fsum (l : List (Option ℝ)) : Option ℝ := l.foldr fadd (some 0)

/-- `term_frequency` (`tfidf.rs` lines 8-26): guard on empty text or empty
term, lowercase both, split the text on whitespace, count matching words,
divide by the word count.  The guard does not cover a non-empty text with
no words (for example all-whitespace text); in that case the division is
`0.0 / 0.0`. -/
noncomputable def term_frequency (term text : List Char) : Option ℝ :=
  if text.isEmpty || term.isEmpty then some 0
  else
    fdiv (tfMatches (toLowerL term) (splitWhitespaceL (toLowerL text)) : ℝ)
      ((splitWhitespaceL (toLowerL text)).length : ℝ)

/-- The `chunks_with_term` counter of `inverse_document_frequency`
(`tfidf.rs` lines 33-36): number of chunks whose lowercased full text
contains the lowered term as a substring. -/
def docFreq (term : List Char) (chunks : List Chunk) : Nat :=
  (chunks.filter (fun chunk => listContains (toLowerL chunk.text) (toLowerL term))).length

/-- `inverse_document_frequency` (`tfidf.rs` lines 30-44): `ln(n / m)`
with the finite fallback `ln(n / 1)` when the term occurs in no chunk. -/
noncomputable def inverse_document_frequency (term : List Char) (chunks : List Chunk) : ℝ :=
  if docFreq term chunks = 0 then Real.log ((chunks.length : ℝ) / 1)
  else Real.log ((chunks.length : ℝ) / (docFreq term chunks : ℝ))

/-- `tfidf_score` (`tfidf.rs` lines 47-49): tf × idf for one term and one
chunk (the idf recomputed from scratch, the "naive" per-term form). -/
noncomputable def tfidf_score (term : List Char) (chunk : Chunk) (all_chunks : List Chunk) :
    Option ℝ :=
  fmul (term_frequency term chunk.text) (some (inverse_document_frequency term all_chunks))

/-- The `term_idfs` map of `score_chunks_tfidf` (`tfidf.rs` lines 62-65),
modelled as an association list: one binding per query term (a duplicated
term overwrites its binding in the `HashMap` with the identical value, so
first-match lookup observes the same mapping). -/
noncomputable def idfMap (terms : List (List Char)) (chunks : List Chunk) :
    List (List Char × ℝ) :=
  terms.map (fun t => (t, inverse_document_frequency t chunks))

/-- `term_idfs[term]` (`tfidf.rs` line 76): association-list lookup.  The
`0` default is unreachable for query terms (see `lookupIdf_idfMap`); the
Rust indexing would panic there instead. -/
noncomputable def lookupIdf : List (List Char × ℝ) → List Char → ℝ
  | [], _ => 0
  | (k, v) :: rest, t => if k = t then v else lookupIdf rest t

/-- The per-chunk score accumulation of `score_chunks_tfidf` (`tfidf.rs`
lines 72-79): sum over the query terms of tf × looked-up idf. -/
noncomputable def chunkScore (queryTerms : List (List Char)) (idfs : List (List Char × ℝ))
    (chunk : Chunk) : Option ℝ :=
  fsum (queryTerms.map (fun t => fmul (term_frequency t chunk.text) (some (lookupIdf idfs t))))

/-- `*score > 0.0` (`tfidf.rs` line 82).  A NaN score compares false. -/
noncomputable def scorePositive : Option ℝ → Bool
  | some v => decide (0 < v)
  | none => false

/-- The `scored_chunks` vector before sorting (`tfidf.rs` lines 67-83):
map each chunk to its score, keep the strictly positive ones.  The
progress-bar calls are side-channel only and do not touch the data. -/
noncomputable def scoredList (query : List Char) (chunks : List Chunk) :
    List (Chunk × Option ℝ) :=
  (chunks.map (fun chunk =>
      (chunk, chunkScore (splitWhitespaceL query) (idfMap (splitWhitespaceL query) chunks) chunk))).filter
    (fun p => scorePositive p.2)

/-- The comparator `|a, b| b.1.partial_cmp(&a.1).unwrap()` (`tfidf.rs`
line 86), i.e. descending by score.  Every element reaching the sort has a
`some` score (the positivity filter ran first), so the `getD 0` total
extension of the partial comparison never differs from the Rust
comparator on sorted data; on a NaN the Rust code would panic. -/
noncomputable def scoreLE (a b : Chunk × Option ℝ) : Bool :=
  decide (b.2.getD 0 ≤ a.2.getD 0)

/-- `score_chunks_tfidf` (`tfidf.rs` lines 52-88).  Rust
`slice::sort_by` is a stable merge sort, modelled by `List.mergeSort`. -/
noncomputable def score_chunks_tfidf (query : List Char) (chunks : List Chunk) :
    List (Chunk × Option ℝ) :=
  (scoredList query chunks).mergeSort scoreLE

/-- Accumulator worker for `rustLines`: split at `\n`, treating a `\r`
directly before a `\n` as part of the terminator. -/
def rustLinesGo : List Char → List Char → List (List Char)
  | acc, [] => [acc.reverse]
  | acc, '\r' :: '\n' :: rest => acc.reverse :: rustLinesGo [] rest
  | acc, '\n' :: rest => acc.reverse :: rustLinesGo [] rest
  | acc, c :: rest => rustLinesGo (c :: acc) rest

/-- Rust `str::lines` (`search.rs` line 35): lines split at `\n` or
`\r\n`, the final line terminator optional (so a trailing terminator does
not produce a trailing empty line), and the empty string has no lines. -/
def rustLines (cs : List Char) : List (List Char) :=
  match cs with
  | [] => []
  | _ :: _ =>
    match (rustLinesGo [] cs).getLast? with
    | some [] => (rustLinesGo [] cs).dropLast
    | _ => rustLinesGo [] cs

/-- The per-document `matches` vector of `search_files` (`search.rs`
lines 34-38): the lines whose lowercased text contains the lowercased
query as a substring, in original line order. -/
def matchingLines (query : List Char) (content : List Char) : List (List Char) :=
  (rustLines content).filter (fun line => listContains (toLowerL line) (toLowerL query))

/-- `search_files` (`search.rs` lines 28-48): one pass over the document
set, emitting `(filename, matching lines)` for each document with a
non-empty match list. -/
def search_files (query : List Char) : List (String × List Char) → List (String × List (List Char))
  | [] => []
  | (filename, content) :: rest =>
    if (matchingLines query content).isEmpty then search_files query rest
    else (filename, matchingLines query content) :: search_files query rest

/-! ## Chunker lemmas -/

theorem utf8Width_pos (c : Char) : 0 < utf8Width c := by
  unfold utf8Width
  repeat' split
  all_goals omega

theorem utf8Width_le_four (c : Char) : utf8Width c ≤ 4 := by
  unfold utf8Width
  repeat' split
  all_goals omega

theorem takeChunk_append (s : Nat) (cs : List Char) :
    (takeChunk s cs).1 ++ (takeChunk s cs).2 = cs := by
  induction cs generalizing s with
  | nil => simp [takeChunk]
  | cons c cs ih =>
    simp only [takeChunk]
    split
    · simp
    · split
      · simp
      · simpa using ih (s - utf8Width c)

theorem takeChunk_fst_ne_nil (s : Nat) (hs : 0 < s) (c : Char) (cs : List Char) :
    (takeChunk s (c :: cs)).1 ≠ [] := by
  simp only [takeChunk]
  split
  · omega
  · split <;> simp

theorem takeChunk_snd_length (s : Nat) (hs : 0 < s) (c : Char) (cs : List Char) :
    (takeChunk s (c :: cs)).2.length ≤ cs.length := by
  have happ := congrArg List.length (takeChunk_append s (c :: cs))
  have hne := takeChunk_fst_ne_nil s hs c cs
  rw [List.length_append] at happ
  cases hfst : (takeChunk s (c :: cs)).1 with
  | nil => exact absurd hfst hne
  | cons a t => rw [hfst] at happ; simp at happ; omega

theorem takeChunk_byteLen_ge (s : Nat) (cs : List Char)
    (h : (takeChunk s cs).2 ≠ []) : s ≤ byteLen (takeChunk s cs).1 := by
  induction cs generalizing s with
  | nil => simp [takeChunk] at h
  | cons c cs ih =>
    by_cases h0 : s = 0
    · omega
    · by_cases hw : s ≤ utf8Width c
      · simp [takeChunk, h0, hw, byteLen]
      · have h2 : (takeChunk (s - utf8Width c) cs).2 ≠ [] := by
          simpa [takeChunk, h0, hw] using h
        have := ih (s - utf8Width c) h2
        simp only [takeChunk, h0, hw, if_false, byteLen, List.map_cons, List.sum_cons] at this ⊢
        omega

theorem takeChunk_byteLen_le (s : Nat) (hs : 0 < s) (cs : List Char) :
    byteLen (takeChunk s cs).1 ≤ s + 3 := by
  induction cs generalizing s with
  | nil => simp [takeChunk, byteLen]
  | cons c cs ih =>
    have hw4 := utf8Width_le_four c
    have hw1 := utf8Width_pos c
    by_cases h0 : s = 0
    · omega
    · by_cases hw : s ≤ utf8Width c
      · simp only [takeChunk, h0, hw, if_false, if_true, byteLen, List.map_cons,
          List.map_nil, List.sum_cons, List.sum_nil]
        omega
      · have := ih (s - utf8Width c) (by omega)
        simp only [takeChunk, h0, hw, if_false, byteLen, List.map_cons, List.sum_cons] at this ⊢
        omega

theorem chunkLoop_isSome (chunkSize : Nat) (hs : 0 < chunkSize) (src : String) :
    ∀ (fuel : Nat) (cs : List Char) (i : Nat), cs.length ≤ fuel →
      (chunkLoop chunkSize src fuel cs i).isSome := by
  intro fuel
  induction fuel with
  | zero =>
    intro cs i h
    cases cs with
    | nil => simp [chunkLoop]
    | cons c cs => simp at h
  | succ f ih =>
    intro cs i h
    cases cs with
    | nil => simp [chunkLoop]
    | cons c cs =>
      have hlen := takeChunk_snd_length chunkSize hs c cs
      have hrec := ih (takeChunk chunkSize (c :: cs)).2 (i + 1) (by simp at h; omega)
      simpa [chunkLoop] using hrec

theorem chunkLoop_spec (chunkSize : Nat) (src : String) :
    ∀ (fuel : Nat) (cs : List Char) (i : Nat) (out : List Chunk),
      chunkLoop chunkSize src fuel cs i = some out →
      (out.map Chunk.text).flatten = cs ∧ out.map Chunk.index = List.range' i out.length := by
  intro fuel
  induction fuel with
  | zero =>
    intro cs i out h
    cases cs with
    | nil => simp [chunkLoop] at h; subst h; simp
    | cons c cs => simp [chunkLoop] at h
  | succ f ih =>
    intro cs i out h
    cases cs with
    | nil => simp [chunkLoop] at h; subst h; simp
    | cons c cs =>
      simp only [chunkLoop, Option.map_eq_some'] at h
      obtain ⟨rest, hrest, hout⟩ := h
      obtain ⟨h1, h2⟩ := ih _ _ _ hrest
      subst hout
      refine ⟨?_, ?_⟩
      · simp only [List.map_cons, List.flatten_cons, h1]
        exact takeChunk_append chunkSize (c :: cs)
      · simp only [List.map_cons, h2, List.length_cons, List.range'_succ]

theorem chunkLoop_sizes (chunkSize : Nat) (hs : 0 < chunkSize) (src : String) :
    ∀ (fuel : Nat) (cs : List Char) (i : Nat) (out : List Chunk),
      chunkLoop chunkSize src fuel cs i = some out →
      ∀ ch ∈ out.dropLast, chunkSize ≤ byteLen ch.text ∧ byteLen ch.text ≤ chunkSize + 3 := by
  intro fuel
  induction fuel with
  | zero =>
    intro cs i out h
    cases cs with
    | nil => simp [chunkLoop] at h; subst h; simp
    | cons c cs => simp [chunkLoop] at h
  | succ f ih =>
    intro cs i out h
    cases cs with
    | nil => simp [chunkLoop] at h; subst h; simp
    | cons c cs =>
      simp only [chunkLoop, Option.map_eq_some'] at h
      obtain ⟨rest, hrest, hout⟩ := h
      subst hout
      intro ch hch
      cases hr : rest with
      | nil => rw [hr] at hch; simp at hch
      | cons r rs =>
        rw [hr] at hch
        rw [List.dropLast_cons₂] at hch
        rcases List.mem_cons.mp hch with hhead | htail
        · subst hhead
          have hne : (takeChunk chunkSize (c :: cs)).2 ≠ [] := by
            intro hnil
            rw [hnil] at hrest
            simp only [chunkLoop, Option.some_inj] at hrest
            rw [← hrest] at hr
            exact List.noConfusion hr
          exact ⟨takeChunk_byteLen_ge chunkSize (c :: cs) hne,
            takeChunk_byteLen_le chunkSize hs (c :: cs)⟩
        · have := ih _ _ _ hrest ch
          rw [hr] at this
          exact this (by simpa using htail)

/-! ## Claims about the chunker -/

/-- C1: for every input text, every positive chunk size and every source
identifier, `chunk_text` terminates, concatenating the `text` fields of
the returned chunks in list order reproduces the input exactly, and the
`index` fields are `0, 1, 2, ...` in list order, so list order is index
order. -/
theorem chunk_text_roundtrip (text : List Char) (chunk_size : Nat) (source_file : String)
    (h : 0 < chunk_size) :
    ∃ cs, chunk_text text chunk_size source_file = some cs ∧
      (cs.map Chunk.text).flatten = text ∧ cs.map Chunk.index = List.range cs.length := by
  have hs := chunkLoop_isSome chunk_size h source_file text.length text 0 (le_refl _)
  obtain ⟨cs, hcs⟩ := Option.isSome_iff_exists.mp hs
  obtain ⟨h1, h2⟩ := chunkLoop_spec chunk_size source_file text.length text 0 cs hcs
  refine ⟨cs, hcs, h1, ?_⟩
  rw [List.range_eq_range']
  exact h2

/-- Witness for C1 at the end-to-end example of the spec: the sentence
chunked at size 20. -/
theorem chunk_text_roundtrip_witness :
    ∃ cs, chunk_text "The quick brown fox jumps over the lazy dog.".data 20 "test.txt" = some cs ∧
      (cs.map Chunk.text).flatten = "The quick brown fox jumps over the lazy dog.".data ∧
      cs.map Chunk.index = List.range cs.length :=
  chunk_text_roundtrip "The quick brown fox jumps over the lazy dog.".data 20 "test.txt"
    (by decide)

/-- C2 (code bug): `chunk_text` does NOT reject a zero chunk size.  On any
non-empty text the `while` loop makes no progress (`end_pos` stays at
`current_pos`, which is already a character boundary) and the code loops
forever pushing empty chunks: in the model, the loop exhausts every fuel
value, and `chunk_text` returns `none`. -/
theorem chunk_text_zero_loops_forever (src : String) (c : Char) (cs : List Char) :
    (∀ fuel index, chunkLoop 0 src fuel (c :: cs) index = none) ∧
    chunk_text (c :: cs) 0 src = none := by
  have key : ∀ fuel index, chunkLoop 0 src fuel (c :: cs) index = none := by
    intro fuel
    induction fuel with
    | zero => intro index; simp [chunkLoop]
    | succ f ih => intro index; simp [chunkLoop, takeChunk, ih]
  exact ⟨key, key _ _⟩

/-- C6: for a positive chunk size every split point of `chunk_text` is a
character boundary of the input (the byte offset of every chunk boundary
is the byte length of some character prefix of the text, hence every
chunk is independently valid text), and every chunk but the final one has
byte length between `chunk_size` and `chunk_size + 3`. -/
theorem chunk_text_boundary_safe (text : List Char) (chunk_size : Nat) (source_file : String)
    (h : 0 < chunk_size) :
    ∃ cs, chunk_text text chunk_size source_file = some cs ∧
      (∀ j, ∃ k, byteLen (((cs.take j).map Chunk.text).flatten) = byteLen (text.take k)) ∧
      (∀ ch ∈ cs.dropLast, chunk_size ≤ byteLen ch.text ∧ byteLen ch.text ≤ chunk_size + 3) := by
  have hs := chunkLoop_isSome chunk_size h source_file text.length text 0 (le_refl _)
  obtain ⟨cs, hcs⟩ := Option.isSome_iff_exists.mp hs
  obtain ⟨h1, _⟩ := chunkLoop_spec chunk_size source_file text.length text 0 cs hcs
  refine ⟨cs, hcs, ?_, chunkLoop_sizes chunk_size h source_file text.length text 0 cs hcs⟩
  intro j
  have hsplit : ((cs.take j).map Chunk.text).flatten ++ ((cs.drop j).map Chunk.text).flatten
      = text := by
    rw [← List.flatten_append, ← List.map_append, List.take_append_drop]
    exact h1
  refine ⟨(((cs.take j).map Chunk.text).flatten).length, ?_⟩
  congr 1
  conv_rhs => rw [← hsplit]
  rw [List.take_left]

/-- Witness for C6 on a text with multi-byte characters, chunk size 3. -/
theorem chunk_text_boundary_safe_witness :
    ∃ cs, chunk_text "héllo wörld".data 3 "t.txt" = some cs ∧
      (∀ j, ∃ k, byteLen (((cs.take j).map Chunk.text).flatten)
        = byteLen ("héllo wörld".data.take k)) ∧
      (∀ ch ∈ cs.dropLast, 3 ≤ byteLen ch.text ∧ byteLen ch.text ≤ 3 + 3) :=
  chunk_text_boundary_safe "héllo wörld".data 3 "t.txt" (by decide)

/-! ## Claims about term frequency and inverse document frequency -/

/-- C3 (code bug): `term_frequency` guards only an empty text or an empty
term.  On a non-empty text with no words (here three spaces) the word
count is zero and the code computes the `f32` division `0.0 / 0.0`, i.e.
NaN (`none` in the model) - not the `0` promised by the claim and by the
doc comment `Returns a value between 0.0 and 1.0`.  The two guarded empty
cases do return `0`. -/
theorem term_frequency_nan_on_whitespace :
    term_frequency ('a' :: []) (' ' :: ' ' :: ' ' :: []) = none ∧
    term_frequency ('a' :: []) [] = some 0 ∧
    term_frequency [] (' ' :: ' ' :: ' ' :: []) = some 0 := by
  have hw : splitWhitespaceL (toLowerL (' ' :: ' ' :: ' ' :: [])) = [] := by decide
  refine ⟨?_, by simp [term_frequency], by simp [term_frequency]⟩
  simp [term_frequency, hw, fdiv]

/-- The document count of a term never exceeds the corpus size. -/
theorem docFreq_le_length (term : List Char) (chunks : List Chunk) :
    docFreq term chunks ≤ chunks.length :=
  List.length_filter_le _ _

/-- C5: for a non-empty corpus, `inverse_document_frequency` is
non-negative, and when the term occurs in no chunk it equals `ln n` for
`n` the corpus size (the finite fallback). -/
theorem idf_nonneg_and_fallback (term : List Char) (chunks : List Chunk)
    (h : chunks ≠ []) :
    0 ≤ inverse_document_frequency term chunks ∧
    (docFreq term chunks = 0 →
      inverse_document_frequency term chunks = Real.log (chunks.length : ℝ)) := by
  have hn : (1:ℝ) ≤ (chunks.length : ℝ) := by
    exact_mod_cast List.length_pos.mpr h
  have hm_le := docFreq_le_length term chunks
  constructor
  · unfold inverse_document_frequency
    split
    · apply Real.log_nonneg
      rw [div_one]
      exact hn
    · rename_i hm0
      have hmpos : (0:ℝ) < (docFreq term chunks : ℝ) := by
        exact_mod_cast Nat.pos_of_ne_zero hm0
      apply Real.log_nonneg
      rw [one_le_div hmpos]
      exact_mod_cast hm_le
  · intro hm
    unfold inverse_document_frequency
    rw [if_pos hm, div_one]

/-- Witness for C5 on a one-chunk corpus and an absent term. -/
theorem idf_nonneg_and_fallback_witness :
    0 ≤ inverse_document_frequency "q".data [⟨"a".data, "f.txt", 0⟩] ∧
    (docFreq "q".data [⟨"a".data, "f.txt", 0⟩] = 0 →
      inverse_document_frequency "q".data [⟨"a".data, "f.txt", 0⟩]
        = Real.log ((([⟨"a".data, "f.txt", 0⟩] : List Chunk)).length : ℝ)) :=
  idf_nonneg_and_fallback "q".data [⟨"a".data, "f.txt", 0⟩] (List.cons_ne_nil _ _)

/-- C8: holding the corpus fixed, idf is monotonically decreasing in the
document count: a term occurring in at most as many chunks as another has
idf at least as large, the `m = 0` fallback included. -/
theorem idf_monotone_docFreq (chunks : List Chunk) (t1 t2 : List Char)
    (h : docFreq t1 chunks ≤ docFreq t2 chunks) :
    inverse_document_frequency t2 chunks ≤ inverse_document_frequency t1 chunks := by
  have hm2_le := docFreq_le_length t2 chunks
  unfold inverse_document_frequency
  by_cases h1 : docFreq t1 chunks = 0
  · rw [if_pos h1]
    by_cases h2 : docFreq t2 chunks = 0
    · rw [if_pos h2]
    · rw [if_neg h2]
      have hm2 : (1:ℝ) ≤ (docFreq t2 chunks : ℝ) := by
        exact_mod_cast Nat.pos_of_ne_zero h2
      have hn : (0:ℝ) < (chunks.length : ℝ) := by
        have h3 : 1 ≤ chunks.length := le_trans (Nat.pos_of_ne_zero h2) hm2_le
        exact_mod_cast h3
      apply Real.log_le_log (by positivity)
      gcongr
  · rw [if_neg h1]
    have h2 : docFreq t2 chunks ≠ 0 := by omega
    rw [if_neg h2]
    have hm1 : (0:ℝ) < (docFreq t1 chunks : ℝ) := by
      exact_mod_cast Nat.pos_of_ne_zero h1
    have hn : (0:ℝ) < (chunks.length : ℝ) := by
      have h3 : 1 ≤ chunks.length := le_trans (Nat.pos_of_ne_zero h2) hm2_le
      exact_mod_cast h3
    apply Real.log_le_log (by positivity)
    gcongr

/-- Witness for C8: an absent term against a term occurring in two of
three chunks. -/
theorem idf_monotone_docFreq_witness :
    inverse_document_frequency "x".data
        [⟨"x".data, "a", 0⟩, ⟨"x".data, "b", 1⟩, ⟨"y".data, "c", 2⟩]
      ≤ inverse_document_frequency "q".data
        [⟨"x".data, "a", 0⟩, ⟨"x".data, "b", 1⟩, ⟨"y".data, "c", 2⟩] :=
  idf_monotone_docFreq [⟨"x".data, "a", 0⟩, ⟨"x".data, "b", 1⟩, ⟨"y".data, "c", 2⟩]
    "q".data "x".data (by decide)

/-! ## Claim about the line search -/

/-- C9: `search_files` equals, document by document in original order,
the map to `(identifier, matching lines)` filtered to documents with at
least one matching line (so zero-match documents are omitted entirely,
never returned with an empty list), and the matching lines of a document
are a sublist of its lines, hence in original line order. -/
theorem search_files_spec (query : List Char) (files : List (String × List Char)) :
    search_files query files =
      (files.map (fun p => (p.1, matchingLines query p.2))).filter (fun r => !r.2.isEmpty) ∧
    ∀ content : List Char, (matchingLines query content).Sublist (rustLines content) := by
  constructor
  · induction files with
    | nil => rfl
    | cons p rest ih =>
      obtain ⟨filename, content⟩ := p
      simp only [search_files, List.map_cons, List.filter_cons]
      by_cases hm : (matchingLines query content).isEmpty
      · rw [if_pos hm]
        simp [hm, ih]
      · rw [if_neg hm]
        simp [hm, ih]
  · intro content
    unfold matchingLines
    exact List.filter_sublist _

/-! ## Scoring pipeline lemmas -/

theorem scoreLE_trans (a b c : Chunk × Option ℝ) :
    scoreLE a b → scoreLE b c → scoreLE a c := by
  intro hab hbc
  simp only [scoreLE, decide_eq_true_eq] at hab hbc ⊢
  exact le_trans hbc hab

theorem scoreLE_total (a b : Chunk × Option ℝ) : scoreLE a b || scoreLE b a := by
  simp only [scoreLE, Bool.or_eq_true, decide_eq_true_eq]
  exact le_total _ _

/-- Looking a query term up in the precomputed idf map returns exactly the
idf of that term over the corpus. -/
theorem lookupIdf_idfMap (chunks : List Chunk) :
    ∀ (terms : List (List Char)) (t : List Char), t ∈ terms →
      lookupIdf (idfMap terms chunks) t = inverse_document_frequency t chunks := by
  intro terms
  induction terms with
  | nil => intro t ht; simp at ht
  | cons a as ih =>
    intro t ht
    simp only [idfMap, List.map_cons, lookupIdf]
    by_cases hat : a = t
    · rw [if_pos hat, hat]
    · rw [if_neg hat]
      rcases List.mem_cons.mp ht with hh | hh
      · exact absurd hh.symm hat
      · exact ih t hh

/-- Every element of the sorted output was an element of the pre-sort
scored list. -/
theorem mem_scoredList_of_mem_output (query : List Char) (chunks : List Chunk)
    (p : Chunk × Option ℝ) (hp : p ∈ score_chunks_tfidf query chunks) :
    p ∈ scoredList query chunks := by
  unfold score_chunks_tfidf at hp
  exact List.mem_mergeSort.mp hp

/-! ## Claims about chunk scoring -/

/-- C7: the per-chunk score computed with the precomputed idf map equals
the sum over the query terms (duplicates included) of the naive
`tfidf_score` of that term, and hence every returned pair carries exactly
that naive sum: precomputing idf changes no score. -/
theorem score_precompute_equiv (query : List Char) (chunks : List Chunk) :
    (∀ chunk : Chunk,
      chunkScore (splitWhitespaceL query) (idfMap (splitWhitespaceL query) chunks) chunk =
        fsum ((splitWhitespaceL query).map (fun t => tfidf_score t chunk chunks))) ∧
    (∀ p ∈ score_chunks_tfidf query chunks,
      p.2 = fsum ((splitWhitespaceL query).map (fun t => tfidf_score t p.1 chunks))) := by
  have key : ∀ chunk : Chunk,
      chunkScore (splitWhitespaceL query) (idfMap (splitWhitespaceL query) chunks) chunk =
        fsum ((splitWhitespaceL query).map (fun t => tfidf_score t chunk chunks)) := by
    intro chunk
    unfold chunkScore tfidf_score
    congr 1
    apply List.map_congr_left
    intro t ht
    rw [lookupIdf_idfMap chunks (splitWhitespaceL query) t ht]
  refine ⟨key, ?_⟩
  intro p hp
  have hp2 := mem_scoredList_of_mem_output query chunks p hp
  unfold scoredList at hp2
  have hp3 := List.mem_of_mem_filter hp2
  obtain ⟨c, hc, hpc⟩ := List.mem_map.mp hp3
  subst hpc
  simpa using key c

/-- C4: every pair returned by `score_chunks_tfidf` has a real (non-NaN)
strictly positive score, and consecutive scores are non-increasing: the
output is sorted by descending score. -/
theorem score_chunks_positive_sorted (query : List Char) (chunks : List Chunk) :
    (∀ p ∈ score_chunks_tfidf query chunks, ∃ s, p.2 = some s ∧ 0 < s) ∧
    (score_chunks_tfidf query chunks).Chain' (fun a b => b.2.getD 0 ≤ a.2.getD 0) := by
  constructor
  · intro p hp
    have hp2 := mem_scoredList_of_mem_output query chunks p hp
    unfold scoredList at hp2
    have hpos := List.of_mem_filter hp2
    cases hs : p.2 with
    | none => rw [hs] at hpos; simp [scorePositive] at hpos
    | some v =>
      refine ⟨v, rfl, ?_⟩
      rw [hs] at hpos
      simpa [scorePositive] using hpos
  · have hpw := List.sorted_mergeSort scoreLE_trans scoreLE_total (scoredList query chunks)
    have hch := hpw.chain'
    unfold score_chunks_tfidf
    refine hch.imp ?_
    intro a b hab
    simpa [scoreLE, decide_eq_true_eq] using hab

/-- C10: the pre-sort scored list keeps the chunks in original corpus
order, and the sort is stable: two entries with equal scores keep their
relative order from the scored list (hence from the corpus) in the sorted
output.  (`score_chunks_tfidf` is a pure function of its arguments, so
determinism is inherent in the model.) -/
theorem score_chunks_stable (query : List Char) (chunks : List Chunk) :
    ((scoredList query chunks).map Prod.fst).Sublist chunks ∧
    (∀ a b : Chunk × Option ℝ, [a, b].Sublist (scoredList query chunks) →
      a.2.getD 0 = b.2.getD 0 → [a, b].Sublist (score_chunks_tfidf query chunks)) := by
  constructor
  · have h1 : (scoredList query chunks).Sublist
        (chunks.map (fun chunk =>
          (chunk, chunkScore (splitWhitespaceL query)
            (idfMap (splitWhitespaceL query) chunks) chunk))) := by
      unfold scoredList
      exact List.filter_sublist _
    have h2 := h1.map Prod.fst
    rw [List.map_map] at h2
    have h3 : (Prod.fst ∘ fun chunk =>
        (chunk, chunkScore (splitWhitespaceL query)
          (idfMap (splitWhitespaceL query) chunks) chunk)) = fun c : Chunk => c := by
      funext c
      rfl
    rw [h3] at h2
    simpa using h2
  · intro a b hsub heq
    unfold score_chunks_tfidf
    apply List.pair_sublist_mergeSort scoreLE_trans scoreLE_total ?_ hsub
    simp [scoreLE, heq]

/-! ## Concrete evaluation of the scorer (used by the witnesses below)

The corpus is three one-word chunks with texts `x`, `x`, `y` and the query
is `x`: the query term occurs in two of three chunks, so its idf is
`ln(3/2) > 0`; the two `x` chunks score `1 * ln(3/2)` and survive the
positivity filter with equal scores, the `y` chunk scores `0` and is
dropped. -/

/-- Evaluation rule for `term_frequency` when the guard fails and the
text has at least one word. -/
theorem term_frequency_eval (term text : List Char)
    (h : (text.isEmpty || term.isEmpty) = false)
    (hn0 : (splitWhitespaceL (toLowerL text)).length ≠ 0) :
    term_frequency term text =
      some ((tfMatches (toLowerL term) (splitWhitespaceL (toLowerL text)) : ℝ) /
        ((splitWhitespaceL (toLowerL text)).length : ℝ)) := by
  unfold term_frequency fdiv
  simp only [h, Bool.false_eq_true, if_false]
  rw [if_neg (Nat.cast_ne_zero.mpr hn0)]

/-- Term `x` against one-word text `x`: tf is `1/1 = 1`. -/
theorem wTF_x : term_frequency ('x' :: []) ('x' :: []) = some 1 := by
  have h1 : (('x' :: []).isEmpty || ('x' :: []).isEmpty) = false := by decide
  have h2 : tfMatches (toLowerL ('x' :: [])) (splitWhitespaceL (toLowerL ('x' :: []))) = 1 := by
    decide
  have h3 : (splitWhitespaceL (toLowerL ('x' :: []))).length = 1 := by decide
  rw [term_frequency_eval _ _ h1 (by rw [h3]; omega), h2, h3]
  norm_num

/-- Term `x` against one-word text `y`: tf is `0/1 = 0`. -/
theorem wTF_y : term_frequency ('x' :: []) ('y' :: []) = some 0 := by
  have h1 : (('y' :: []).isEmpty || ('x' :: []).isEmpty) = false := by decide
  have h2 : tfMatches (toLowerL ('x' :: [])) (splitWhitespaceL (toLowerL ('y' :: []))) = 0 := by
    decide
  have h3 : (splitWhitespaceL (toLowerL ('y' :: []))).length = 1 := by decide
  rw [term_frequency_eval _ _ h1 (by rw [h3]; omega), h2, h3]
  norm_num

/-- Idf of `x` over the witness corpus: occurs in 2 of 3 chunks. -/
theorem wIDF_x : inverse_document_frequency ('x' :: [])
    [⟨'x' :: [], "a", 0⟩, ⟨'x' :: [], "b", 1⟩, ⟨'y' :: [], "c", 2⟩] = Real.log ((3:ℝ)/2) := by
  have hdf : docFreq ('x' :: [])
      [⟨'x' :: [], "a", 0⟩, ⟨'x' :: [], "b", 1⟩, ⟨'y' :: [], "c", 2⟩] = 2 := by decide
  unfold inverse_document_frequency
  rw [hdf]
  norm_num

/-- The witness query splits into the single term `x`. -/
theorem wTerms : splitWhitespaceL ('x' :: []) = [('x' :: [])] := by decide

/-- Precomputed idf lookup for the witness query term. -/
theorem wLookup : lookupIdf (idfMap [('x' :: [])]
    [⟨'x' :: [], "a", 0⟩, ⟨'x' :: [], "b", 1⟩, ⟨'y' :: [], "c", 2⟩]) ('x' :: [])
    = Real.log ((3:ℝ)/2) := by
  simp only [idfMap, List.map_cons, List.map_nil, lookupIdf, if_pos]
  exact wIDF_x

/-- Score of a chunk with text `x` in the witness corpus. -/
theorem wChunkScore_x (ch : Chunk) (hch : ch.text = 'x' :: []) :
    chunkScore (splitWhitespaceL ('x' :: [])) (idfMap (splitWhitespaceL ('x' :: []))
      [⟨'x' :: [], "a", 0⟩, ⟨'x' :: [], "b", 1⟩, ⟨'y' :: [], "c", 2⟩]) ch
    = some (Real.log ((3:ℝ)/2)) := by
  unfold chunkScore
  rw [wTerms]
  simp only [List.map_cons, List.map_nil, hch, wTF_x, wLookup, fmul, fsum, List.foldr, fadd]
  norm_num

/-- Score of the chunk with text `y` in the witness corpus: zero. -/
theorem wChunkScore_y (ch : Chunk) (hch : ch.text = 'y' :: []) :
    chunkScore (splitWhitespaceL ('x' :: [])) (idfMap (splitWhitespaceL ('x' :: []))
      [⟨'x' :: [], "a", 0⟩, ⟨'x' :: [], "b", 1⟩, ⟨'y' :: [], "c", 2⟩]) ch
    = some 0 := by
  unfold chunkScore
  rw [wTerms]
  simp only [List.map_cons, List.map_nil, hch, wTF_y, wLookup, fmul, fsum, List.foldr, fadd]
  norm_num

/-- The pre-sort scored list of the witness corpus: the two `x` chunks
with equal positive scores, the `y` chunk filtered out. -/
theorem wScoredList : scoredList ('x' :: [])
    [⟨'x' :: [], "a", 0⟩, ⟨'x' :: [], "b", 1⟩, ⟨'y' :: [], "c", 2⟩] =
    [(⟨'x' :: [], "a", 0⟩, some (Real.log ((3:ℝ)/2))),
     (⟨'x' :: [], "b", 1⟩, some (Real.log ((3:ℝ)/2)))] := by
  have hpos : scorePositive (some (Real.log ((3:ℝ)/2))) = true := by
    simp only [scorePositive, decide_eq_true_eq]
    exact Real.log_pos (by norm_num)
  have hneg : scorePositive (some (0:ℝ)) = false := by
    simp [scorePositive]
  unfold scoredList
  rw [List.map_cons, List.map_cons, List.map_cons, List.map_nil]
  rw [wChunkScore_x ⟨'x' :: [], "a", 0⟩ rfl, wChunkScore_x ⟨'x' :: [], "b", 1⟩ rfl,
    wChunkScore_y ⟨'y' :: [], "c", 2⟩ rfl]
  simp [List.filter_cons, hpos, hneg]

/-- The sorted output on the witness corpus (already sorted, scores are
equal). -/
theorem wOutput : score_chunks_tfidf ('x' :: [])
    [⟨'x' :: [], "a", 0⟩, ⟨'x' :: [], "b", 1⟩, ⟨'y' :: [], "c", 2⟩] =
    [(⟨'x' :: [], "a", 0⟩, some (Real.log ((3:ℝ)/2))),
     (⟨'x' :: [], "b", 1⟩, some (Real.log ((3:ℝ)/2)))] := by
  unfold score_chunks_tfidf
  rw [wScoredList]
  apply List.mergeSort_of_sorted
  simp [List.pairwise_cons, scoreLE]

/-- Witness for C4: the first returned pair of the witness corpus has a
strictly positive real score. -/
theorem score_chunks_positive_sorted_witness :
    ∃ s, ((⟨'x' :: [], "a", 0⟩, some (Real.log ((3:ℝ)/2))) : Chunk × Option ℝ).2
      = some s ∧ 0 < s :=
  (score_chunks_positive_sorted ('x' :: [])
      [⟨'x' :: [], "a", 0⟩, ⟨'x' :: [], "b", 1⟩, ⟨'y' :: [], "c", 2⟩]).1
    (⟨'x' :: [], "a", 0⟩, some (Real.log ((3:ℝ)/2)))
    (by rw [wOutput]; exact List.mem_cons_self _ _)

/-- Witness for C7: the first returned pair of the witness corpus carries
exactly the naive per-term tf-idf sum. -/
theorem score_precompute_equiv_witness :
    ((⟨'x' :: [], "a", 0⟩, some (Real.log ((3:ℝ)/2))) : Chunk × Option ℝ).2 =
      fsum ((splitWhitespaceL ('x' :: [])).map (fun t =>
        tfidf_score t
          ((⟨'x' :: [], "a", 0⟩, some (Real.log ((3:ℝ)/2))) : Chunk × Option ℝ).1
          [⟨'x' :: [], "a", 0⟩, ⟨'x' :: [], "b", 1⟩, ⟨'y' :: [], "c", 2⟩])) :=
  (score_precompute_equiv ('x' :: [])
      [⟨'x' :: [], "a", 0⟩, ⟨'x' :: [], "b", 1⟩, ⟨'y' :: [], "c", 2⟩]).2
    (⟨'x' :: [], "a", 0⟩, some (Real.log ((3:ℝ)/2)))
    (by rw [wOutput]; exact List.mem_cons_self _ _)

/-- Witness for C10: the two equal-score `x` chunks keep their corpus
order in the sorted output. -/
theorem score_chunks_stable_witness :
    [(⟨'x' :: [], "a", 0⟩, some (Real.log ((3:ℝ)/2))),
     (⟨'x' :: [], "b", 1⟩, some (Real.log ((3:ℝ)/2)))].Sublist
      (score_chunks_tfidf ('x' :: [])
        [⟨'x' :: [], "a", 0⟩, ⟨'x' :: [], "b", 1⟩, ⟨'y' :: [], "c", 2⟩]) :=
  (score_chunks_stable ('x' :: [])
      [⟨'x' :: [], "a", 0⟩, ⟨'x' :: [], "b", 1⟩, ⟨'y' :: [], "c", 2⟩]).2
    (⟨'x' :: [], "a", 0⟩, some (Real.log ((3:ℝ)/2)))
    (⟨'x' :: [], "b", 1⟩, some (Real.log ((3:ℝ)/2)))
    (by rw [wScoredList]) rfl
